import Mathlib

/-!
Shallow embedding of the alias service (chop-dbhi/aliases).

The program stores everything in Redis, a flat string-keyed store.  We model
the store as an association list from the actual key strings the Go code
builds (via `mk(pattern, args...)` = `fmt.Sprintf`) to values.  Values are
Redis byte strings; we model them with a small sum `RVal` that keeps the
three shapes the program stores — plain strings, integers (redigo
serialises Go ints as decimal strings), and the JSON-serialised `Def` blob,
which we keep transparently as the `Def` itself since `json.Marshal` /
`json.Unmarshal` round-trips the flat `Def` struct.

Key patterns from server.go:
  internalPrefix = "_:%s"   defPrefix = "d:%s"   valuePrefix = "v:%d"
  seqPrefix = "s:%d"        keyPrefix = "k:%d:%s"  aliasPrefix = "a:%d:%s"
-/

namespace Aliases

/-- Def is an alias generator definition (gen.go).  `ty` embeds the Go field
`Type`, `pre` embeds `Prefix` (both renamed for Lean); `deleted` embeds the
`Deleted`/`archived` flag. -/
structure Def where
  id : Int
  name : String
  ty : String
  offset : Int
  chars : String
  minlen : Int
  pre : String
  deleted : Bool
deriving DecidableEq

/-- RandMinlen is the default alias length for random alias generators. -/
def RandMinlen : Int := 8

/-- RandChars is the default character set for random alias generators
(copied character for character from gen.go). -/
def RandChars : String := "abcdefghijklmnopqrstuvwzyz0123456789"

/-- MinRandMinlen is the minimum alias length allowed for `rand`. -/
def MinRandMinlen : Int := 4

/-- MinRandChars is the minimum number of characters allowed in a `rand`
character set. -/
def MinRandChars : Nat := 8

/-- NewDef returns a definition with the default settings (gen.go). -/
def NewDef : Def := ⟨0, "", "", 0, RandChars, RandMinlen, "", false⟩

/-- Status constants (server.go): `exists`, `created`, `missing`; `unset`
models the Go zero value of the `Status` int. -/
inductive Status where
  | unset
  | statusExists
  | statusCreated
  | statusMissing
deriving DecidableEq

/-- IdentAlias pairs one identifier with an alias and a result status
(`alias'` embeds the Go field `Alias`; `alias` is a Lean keyword). -/
structure IdentAlias where
  ident : String
  alias' : String
  status : Status
deriving DecidableEq

/-- RVal models a Redis value: a byte string, an integer (stored by Redis as
its decimal string), or the JSON blob of a `Def` (kept transparently). -/
inductive RVal where
  | str (s : String)
  | int (n : Int)
  | blob (d : Def)
deriving DecidableEq

/-- Store models the flat Redis keyspace as an association list (most recent
write first). -/
def Store := List (String × RVal)

instance : DecidableEq Store := by unfold Store; infer_instance

/-- lookupVal returns the most recent value written at a key, if any. -/
def lookupVal : Store → String → Option RVal
  | [], _ => none
  | (k, v) :: rest, key => if k = key then some v else lookupVal rest key

/-- setVal models Redis SET / one pair of an MSET: an unconditional write. -/
def setVal (st : Store) (k : String) (v : RVal) : Store := (k, v) :: st

/-- delKey models Redis DEL of a single key. -/
def delKey (st : Store) (k : String) : Store :=
  List.filter (fun p => p.1 != k) st

/-- existsKey models Redis EXISTS. -/
def existsKey (st : Store) (k : String) : Bool := (lookupVal st k).isSome

/-- encodeDef stands in for the `json.Marshal` rendering of a `Def`; the
modelled code never parses this rendering (blobs are read back as `Def`
values via `getBlob`). -/
def encodeDef (d : Def) : String :=
  String.intercalate "|"
    [toString d.id, d.name, d.ty, toString d.offset, d.chars,
     toString d.minlen, d.pre, toString d.deleted]

/-- rvalBytes gives the byte-string content of a value, as `redis.String`
would return it. -/
def rvalBytes : RVal → String
  | .str s => s
  | .int n => toString n
  | .blob d => encodeDef d

/-- getStr models `redis.String(conn.Do("GET", k))`: `none` is the ErrNil
(missing key) case. -/
def getStr (st : Store) (k : String) : Option String :=
  (lookupVal st k).map rvalBytes

/-- getInt models `redis.Int64(conn.Do("GET", k))`. -/
def getInt (st : Store) (k : String) : Option Int :=
  match lookupVal st k with
  | some (.int n) => some n
  | some (.str s) => s.toInt?
  | some (.blob _) => none
  | none => none

/-- getBlob models reading a key with `redis.Bytes` and `json.Unmarshal`-ing
the blob into a `Def`. -/
def getBlob (st : Store) (k : String) : Option Def :=
  match lookupVal st k with
  | some (.blob d) => some d
  | _ => none

/-- incrStore models Redis INCR: a missing key counts as 0; the incremented
value is stored and returned. -/
def incrStore (st : Store) (k : String) : Int × Store :=
  let cur : Int :=
    match lookupVal st k with
    | some (.int n) => n
    | some (.str s) => (s.toInt?).getD 0
    | some (.blob _) => 0
    | none => 0
  (cur + 1, setVal st k (.int (cur + 1)))

/-- defNameKey is `mk(defPrefix, name)` = `"d:" ++ name`. -/
def defNameKey (name : String) : String := "d:" ++ name

/-- defValueKey is `mk(valuePrefix, id)` = `"v:" ++ <decimal id>`. -/
def defValueKey (id : Int) : String := "v:" ++ toString id

/-- seqKeyOf is `mk(seqPrefix, id)` = `"s:" ++ <decimal id>`, the counter key
CreateDef initialises for `seq` definitions. -/
def seqKeyOf (id : Int) : String := "s:" ++ toString id

/-- seqIncrKey is the key SeqGen.New actually increments: the Go expression
`seqPrefix+g.Name` concatenates the raw pattern `"s:%d"` with the definition
name (the pattern is never formatted there). -/
def seqIncrKey (name : String) : String := "s:%d" ++ name

/-- internalDefIdKey is `mk(internalPrefix, "def:id")` = `"_:def:id"`. -/
def internalDefIdKey : String := "_:def:id"

/-- fwdKeyBase is the fixed part `"k:" ++ <decimal id> ++ ":"` of a forward
key. -/
def fwdKeyBase (id : Int) : String := "k:" ++ toString id ++ ":"

/-- fwdKey is `mk(keyPrefix, id, ident)` = `"k:<id>:<ident>"`, the forward
(identifier to alias) key. -/
def fwdKey (id : Int) (ident : String) : String := fwdKeyBase id ++ ident

/-- revKeyBase is the fixed part `"a:" ++ <decimal id> ++ ":"` of a reverse
key. -/
def revKeyBase (id : Int) : String := "a:" ++ toString id ++ ":"

/-- revKey is `mk(aliasPrefix, id, alias)` = `"a:<id>:<alias>"`, the reverse
(alias existence marker) key. -/
def revKey (id : Int) (a : String) : String := revKeyBase id ++ a

/-! Generator strategies (gen.go).  Randomness is modelled by explicit
oracles: `rnd` is the stream of draws made by rand.Intn (each taken modulo
the bound, as Intn bounds its result) and `uuids` the stream of uuid.NewV4
renderings.  A generator threads an oracle cursor (a `Nat`) and the store,
because SeqGen issues INCR against the store. -/

def GenFn : Type := Nat → Store → String × Nat × Store

/-- seqGenNew embeds SeqGen.New: INCR of `seqPrefix+g.Name` — the raw
pattern `"s:%d"` concatenated with the definition name, the pattern never
being formatted there — with the new counter value rendered in decimal. -/
def seqGenNew (name : String) : GenFn := fun gs st =>
  let r := incrStore st (seqIncrKey name)
  (toString r.1, gs, r.2)

/-- randGenNew embeds RandGen.New: `minlen` characters drawn from `chars`
(indexed by the rand.Intn draws), then the configured fixed lead string
(the Go field Prefix) if it is nonempty. -/
def randGenNew (lead : String) (minlen : Nat) (chars : String)
    (rnd : Nat → Nat) : GenFn := fun gs st =>
  let core := String.mk ((List.range minlen).map
    (fun j => chars.data.getD (rnd (gs + j) % chars.data.length) 'a'))
  (if lead = "" then core else lead ++ core, gs + minlen, st)

/-- uuidGenNew embeds UUIDGen.New through the uuid oracle. -/
def uuidGenNew (uuids : Nat → String) : GenFn := fun gs st =>
  (uuids gs, gs + 1, st)

/-- MakeGen (gen.go) dispatches on the definition type.  The Go function
returns a nil generator for an unknown type (using it would crash); that
unreachable case is modelled by a constant generator. -/
def MakeGen (rnd : Nat → Nat) (uuids : Nat → String) (d : Def) : GenFn :=
  if d.ty = "uuid" then uuidGenNew uuids
  else if d.ty = "rand" then randGenNew d.pre d.minlen.toNat d.chars rnd
  else if d.ty = "seq" then seqGenNew d.name
  else fun gs st => ("", gs, st)

/-- GenError is the error surface of Server.Gen in the model: the backend
itself never fails here, so ErrMaxAttemptsReached is the only case. -/
inductive GenError where
  | maxAttemptsReached
deriving DecidableEq

/-- PutError is the "empty alias" error of Server.Put. -/
inductive PutError where
  | emptyAlias
deriving DecidableEq

/-- CreateError covers the failures of Server.CreateDef: a validation
message or ErrDefExists. -/
inductive CreateError where
  | validation (msg : String)
  | defExists
deriving DecidableEq

/-- MaxAttempts is the max number of alias generation attempts (server.go). -/
def MaxAttempts : Nat := 100

/-- genAttempts embeds the per-identifier generate/check/commit loop of
Server.Gen (server.go lines 375-414).  `fuel` is the number of attempts
still allowed (`MaxAttempts - attempt`); a `none` first component is the
`attempt == MaxAttempts` exit that Server.Gen turns into
ErrMaxAttemptsReached. -/
def genAttempts (d : Def) (g : GenFn) (lookupKey : String) :
    Nat → Nat → Store → Option String × Nat × Store
  | 0, gs, st => (none, gs, st)
  | fuel + 1, gs, st =>
    let r := g gs st
    if existsKey r.2.2 (revKey d.id r.1) then
      genAttempts d g lookupKey fuel r.2.1 r.2.2
    else
      (some r.1, r.2.1,
        setVal (setVal r.2.2 lookupKey (.str r.1)) (revKey d.id r.1) (.str "1"))

/-- serverGen embeds Server.Gen (server.go lines 347-418).  The returned
list is the input slice as mutated in place; the last component is the
error.  On ErrMaxAttemptsReached the Go loop returns at once, so the
failing entry and everything after it are returned untouched. -/
def serverGen (d : Def) (g : GenFn) :
    List IdentAlias → Nat → Store → List IdentAlias × Store × Option GenError
  | [], _, st => ([], st, none)
  | ia :: rest, gs, st =>
    if ia.ident = "" then
      let r := serverGen d g rest gs st
      (ia :: r.1, r.2)
    else
      match getStr st (fwdKey d.id ia.ident) with
      | some a =>
        let r := serverGen d g rest gs st
        (⟨ia.ident, a, .statusExists⟩ :: r.1, r.2)
      | none =>
        match genAttempts d g (fwdKey d.id ia.ident) MaxAttempts gs st with
        | (none, _, st') => (ia :: rest, st', some .maxAttemptsReached)
        | (some a, gs', st') =>
          let r := serverGen d g rest gs' st'
          (⟨ia.ident, a, .statusCreated⟩ :: r.1, r.2)

/-- serverGet embeds Server.Get (server.go lines 420-445).  The store is
threaded through unchanged: the body issues only GET commands. -/
def serverGet (d : Def) : List IdentAlias → Store → List IdentAlias × Store
  | [], st => ([], st)
  | ia :: rest, st =>
    let out : IdentAlias :=
      match getStr st (fwdKey d.id ia.ident) with
      | some a => ⟨ia.ident, a, .statusExists⟩
      | none => ⟨ia.ident, ia.alias', .statusMissing⟩
    let r := serverGet d rest st
    (out :: r.1, r.2)

/-- serverPut embeds Server.Put (server.go lines 447-475): entries with an
empty identifier are skipped; an empty alias aborts with the "empty alias"
error; otherwise both keys are written by an unconditional MSET. -/
def serverPut (d : Def) : List IdentAlias → Store → Store × Option PutError
  | [], st => (st, none)
  | ia :: rest, st =>
    if ia.ident = "" then serverPut d rest st
    else if ia.alias' = "" then (st, some .emptyAlias)
    else
      serverPut d rest
        (setVal (setVal st (fwdKey d.id ia.ident) (.str ia.alias'))
          (revKey d.id ia.alias') (.str "1"))

/-- serverDel embeds Server.Del (server.go lines 477-520); the counters the
Go code keeps are only logged, so the model returns just the store. -/
def serverDel (d : Def) : List String → Store → Store
  | [], st => st
  | ident :: rest, st =>
    match getStr st (fwdKey d.id ident) with
    | none => serverDel d rest st
    | some a =>
      serverDel d rest (delKey (delKey st (fwdKey d.id ident)) (revKey d.id a))

/-- nameChar holds for the characters of the class `[A-Za-z0-9-_\.]`. -/
def nameChar (c : Char) : Bool :=
  c.isAlphanum || c == '-' || c == '_' || c == '.'

/-- matchesNameRegex models `nameRegex.MatchString` for the anchored pattern
`^[A-Za-z0-9-_\.]+$`. -/
def matchesNameRegex (s : String) : Bool := !s.isEmpty && s.data.all nameChar

/-- validateDef embeds Server.validateDef (server.go lines 219-248); the
result is the error message, if any.  `len(def.Chars)` in Go is the byte
length, hence `utf8ByteSize`. -/
def validateDef (d : Def) : Option String :=
  if d.name = "" then some "name required"
  else if !matchesNameRegex d.name then
    some "name may only contain [A-Za-z0-9-_.] chars"
  else if d.ty = "" then some "type required"
  else if d.ty = "seq" then none
  else if d.ty = "rand" then
    if d.minlen < MinRandMinlen then some "rand min length too small"
    else if d.chars.utf8ByteSize < MinRandChars then some "too few chars for rand"
    else none
  else if d.ty = "uuid" then none
  else some "unknown type"

/-- createDef embeds Server.CreateDef (server.go lines 253-310): validate,
refuse an existing name binding, INCR the global id counter, then MSET the
name binding, the id-indexed blob, and (for seq) the counter seeded with
the offset. -/
def createDef (st : Store) (d : Def) : Store × Except CreateError Def :=
  match validateDef d with
  | some msg => (st, .error (.validation msg))
  | none =>
    if existsKey st (defNameKey d.name) then (st, .error .defExists)
    else
      let r := incrStore st internalDefIdKey
      let d' : Def := ⟨r.1, d.name, d.ty, d.offset, d.chars, d.minlen, d.pre, d.deleted⟩
      let st1 := setVal (setVal r.2 (defNameKey d'.name) (.int d'.id))
        (defValueKey d'.id) (.blob d')
      let st2 := if d'.ty = "seq" then setVal st1 (seqKeyOf d'.id) (.int d'.offset)
        else st1
      (st2, .ok d')

/-- updateDef embeds Server.UpdateDef (server.go lines 312-345); the second
component is the validation error message, if any. -/
def updateDef (st : Store) (name : String) (d : Def) : Store × Option String :=
  match validateDef d with
  | some msg => (st, some msg)
  | none =>
    let st1 := if name = d.name then st else delKey st (defNameKey name)
    (setVal (setVal st1 (defNameKey d.name) (.int d.id))
      (defValueKey d.id) (.blob d), none)

/-- getDef embeds Server.GetDef (server.go lines 191-217): resolve the name
binding to an id, then read the id-indexed blob; `none` covers ErrNoDef and
the decode-failure paths. -/
def getDef (st : Store) (name : String) : Option Def :=
  match getInt st (defNameKey name) with
  | none => none
  | some id => getBlob st (defValueKey id)

/-- DefPatch is the JSON body of an update request; a field absent from the
body is `none`. -/
structure DefPatch where
  id : Option Int
  name : Option String
  ty : Option String
  offset : Option Int
  chars : Option String
  minlen : Option Int
  pre : Option String
  deleted : Option Bool
deriving DecidableEq

/-- mergeDef models `json.NewDecoder(..).Decode(def)` into the struct that
already holds the fetched definition: a field present in the body
overwrites, an absent field keeps the current value. -/
def mergeDef (d : Def) (p : DefPatch) : Def :=
  ⟨p.id.getD d.id, p.name.getD d.name, p.ty.getD d.ty, p.offset.getD d.offset,
   p.chars.getD d.chars, p.minlen.getD d.minlen, p.pre.getD d.pre,
   p.deleted.getD d.deleted⟩

/-- UpdateError is the error surface of the update handler in the model. -/
inductive UpdateError where
  | notFound
  | validation (msg : String)
deriving DecidableEq

/-- mergedKeepId is the definition the update handler hands to
Server.UpdateDef: the request body decoded over the fetched definition
(`mergeDef`), with the fetched id forced back (`def.ID = id`). -/
def mergedKeepId (d0 : Def) (p : DefPatch) : Def :=
  ⟨d0.id, (mergeDef d0 p).name, (mergeDef d0 p).ty, (mergeDef d0 p).offset,
   (mergeDef d0 p).chars, (mergeDef d0 p).minlen, (mergeDef d0 p).pre,
   (mergeDef d0 p).deleted⟩

/-- handlerUpdateDef embeds makeUpdateDefHandler (handlers.go): fetch the
definition by name, remember its id, decode the body over it, force the id
back, and call Server.UpdateDef. -/
def handlerUpdateDef (st : Store) (name : String) (p : DefPatch) :
    Store × Option UpdateError :=
  match getDef st name with
  | none => (st, some .notFound)
  | some d0 =>
    match updateDef st name (mergedKeepId d0 p) with
    | (st', none) => (st', none)
    | (st', some msg) => (st', some (.validation msg))

/-- genCommitStep embeds one candidate's check-and-commit step of Server.Gen
(server.go lines 393-413) at backend-command granularity: the EXISTS on the
reverse key and then, as a separate later command, the MSET of the forward
and reverse keys.  `env` is the interference point: the writes performed by
concurrent operations on the shared backend inside the window between the
two commands.  A `none` result is the reverse-hit outcome, after which the
loop retries with a fresh candidate. -/
def genCommitStep (d : Int) (lookupKey a : String) (env : Store → Store)
    (st : Store) : Option Store :=
  if existsKey st (revKey d a) then none
  else some (setVal (setVal (env st) lookupKey (.str a)) (revKey d a) (.str "1"))

/-! Specification-side notions used to state the claims. -/

/-- putSpecGo processes the entries that putSpec keeps: a pair with an empty
alias aborts with EmptyAlias; any other pair overwrites forward[identifier]
and sets reverse[alias] unconditionally (last writer wins). -/
def putSpecGo (d : Def) : List IdentAlias → Store → Store × Option PutError
  | [], st => (st, none)
  | ia :: rest, st =>
    if ia.alias' = "" then (st, some .emptyAlias)
    else
      putSpecGo d rest
        (setVal (setVal st (fwdKey d.id ia.ident) (.str ia.alias'))
          (revKey d.id ia.alias') (.str "1"))

/-- putSpec states the spec's contract for `put` in the spec's own terms:
entries whose identifier is empty are skipped outright; each remaining pair
fails with EmptyAlias when its alias is empty and is otherwise written
unconditionally, with no existence check. -/
def putSpec (d : Def) (ias : List IdentAlias) (st : Store) :
    Store × Option PutError :=
  putSpecGo d (ias.filter (fun ia => ia.ident != "")) st

/-- putWrites is the store effect of the entries Server.Put has processed
before an abort: skipped entries write nothing, the rest write both keys. -/
def putWrites (d : Def) : List IdentAlias → Store → Store
  | [], st => st
  | ia :: rest, st =>
    if ia.ident = "" then putWrites d rest st
    else
      putWrites d rest
        (setVal (setVal st (fwdKey d.id ia.ident) (.str ia.alias'))
          (revKey d.id ia.alias') (.str "1"))

/-- allCandidatesTaken holds when each of the next `fuel` candidates the
generator would produce is already present in the reverse table at the
moment it is checked. -/
def allCandidatesTaken (d : Def) (g : GenFn) : Nat → Nat → Store → Prop
  | 0, _, _ => True
  | fuel + 1, gs, st =>
    existsKey (g gs st).2.2 (revKey d.id (g gs st).1) = true ∧
    allCandidatesTaken d g fuel (g gs st).2.1 (g gs st).2.2

/-- agrees states the forward/reverse consistency invariant for one
definition id: an alias has a reverse entry iff some identifier maps to it
in the forward table. -/
def agrees (d : Int) (st : Store) : Prop :=
  ∀ a, existsKey st (revKey d a) = true ↔ ∃ i, getStr st (fwdKey d i) = some a

/-- fwdInj states that no two distinct identifiers of one definition hold
the same alias in the forward table. -/
def fwdInj (d : Int) (st : Store) : Prop :=
  ∀ i j a, getStr st (fwdKey d i) = some a → getStr st (fwdKey d j) = some a →
    i = j

/-- genFrame states that a generator's store effect never touches the
forward or reverse keys of definition id `d` (true of all three
strategies: SeqGen only INCRs its counter key, RandGen and UUIDGen do not
write at all). -/
def genFrame (d : Int) (g : GenFn) : Prop :=
  ∀ gs st,
    (∀ i, lookupVal (g gs st).2.2 (fwdKey d i) = lookupVal st (fwdKey d i)) ∧
    (∀ a, lookupVal (g gs st).2.2 (revKey d a) = lookupVal st (revKey d a))

/-! Concrete instances used by the counterexamples and witnesses. -/

/-- c2def is the round-trip scenario definition
`(name: "t", type: "seq", offset: 100000)` over the NewDef defaults. -/
def c2def : Def := ⟨0, "t", "seq", 100000, RandChars, RandMinlen, "", false⟩

/-- c2d1 is c2def as CreateDef returns it on a fresh store: id 1. -/
def c2d1 : Def := ⟨1, "t", "seq", 100000, RandChars, RandMinlen, "", false⟩

/-- c2store is the store after creating c2def on a fresh backend. -/
def c2store : Store := (createDef ([] : Store) c2def).1

/-- c2batch is the identifier batch of the round-trip scenario. -/
def c2batch : List IdentAlias :=
  [⟨"a", "", .unset⟩, ⟨"b", "", .unset⟩, ⟨"c", "", .unset⟩]

/-- c1env is a concurrent assignment that claims candidate "A" for the
other identifier "y" (it lands inside the check-to-write window). -/
def c1env : Store → Store := fun st =>
  setVal (setVal st (fwdKey 1 "y") (.str "A")) (revKey 1 "A") (.str "1")

/-- dP is a definition with id 1 used by the put scenarios (its generator
parameters are irrelevant to Server.Put). -/
def dP : Def := ⟨1, "p", "rand", 0, RandChars, 8, "", false⟩

/-- stP is the store after `put` maps identifier "x" to alias "A". -/
def stP : Store := (serverPut dP [⟨"x", "A", .unset⟩] ([] : Store)).1

/-- stP2 is the store after a second `put` remaps "x" to alias "B": the
reverse entry for "A" is left behind with no forward entry. -/
def stP2 : Store := (serverPut dP [⟨"x", "B", .unset⟩] stP).1

/-- d5 is the exhaustion-scenario definition: `rand` with a one-character
candidate space (chars "aaaaaaaa", minlen 4) produces only "aaaa". -/
def d5 : Def := ⟨1, "t", "rand", 0, "aaaaaaaa", 4, "", false⟩

/-- c5g is d5's generator with a constant oracle; every candidate it
produces is "aaaa". -/
def c5g : GenFn := MakeGen (fun _ => 0) (fun _ => "") d5

/-- c5store is a store whose reverse table already holds the only candidate
d5 can produce. -/
def c5store : Store := [(revKey 1 "aaaa", RVal.str "1")]

/-- d9 is the stored definition of the update-handler scenario (id 7). -/
def d9 : Def := ⟨7, "t", "seq", 5, RandChars, 8, "", false⟩

/-- st9 is a well-formed registry store holding d9 under name "t". -/
def st9 : Store :=
  [(defNameKey "t", RVal.int 7), (defValueKey 7, RVal.blob d9)]

/-- p9 is an update request body that renames "t" to "t2" and tries to
smuggle in a different id. -/
def p9 : DefPatch :=
  ⟨some 999, some "t2", none, none, none, none, none, none⟩

/-- dC3 is a `seq` definition (id 1) used to witness the consistency
preservation theorem. -/
def dC3 : Def := ⟨1, "t", "seq", 0, RandChars, 8, "", false⟩

/-- c1after is the store genCommitStep leaves behind in the interfered
run of the C1 scenario. -/
def c1after : Store :=
  setVal (setVal (c1env ([] : Store)) (fwdKey 1 "x") (.str "A"))
    (revKey 1 "A") (.str "1")

/-- c2gen is the full assign call of the round-trip scenario, run on the
store `create` left behind (the oracles are irrelevant for `seq`). -/
def c2gen : List IdentAlias × Store × Option GenError :=
  serverGen c2d1 (MakeGen (fun _ => 0) (fun _ => "") c2d1) c2batch 0 c2store

/-! Basic facts about the key strings and the store primitives. -/

theorem str_append_cancel {p a b : String} (h : p ++ a = p ++ b) : a = b := by
  have h2 := congrArg String.data h
  simp only [String.data_append] at h2
  exact String.ext (List.append_cancel_left h2)

theorem fwdKey_inj {d : Int} {i j : String} (h : fwdKey d i = fwdKey d j) :
    i = j := str_append_cancel h

theorem revKey_inj {d : Int} {a b : String} (h : revKey d a = revKey d b) :
    a = b := str_append_cancel h

theorem fwdKey_ne_revKey (d d' : Int) (i a : String) :
    fwdKey d i ≠ revKey d' a := by
  intro h
  have h2 := congrArg String.data h
  simp only [fwdKey, revKey, fwdKeyBase, revKeyBase, String.data_append] at h2
  simp at h2

theorem seqIncrKey_ne_fwdKey (n : String) (d : Int) (i : String) :
    seqIncrKey n ≠ fwdKey d i := by
  intro h
  have h2 := congrArg String.data h
  simp only [seqIncrKey, fwdKey, fwdKeyBase, String.data_append] at h2
  simp at h2

theorem seqIncrKey_ne_revKey (n : String) (d : Int) (a : String) :
    seqIncrKey n ≠ revKey d a := by
  intro h
  have h2 := congrArg String.data h
  simp only [seqIncrKey, revKey, revKeyBase, String.data_append] at h2
  simp at h2

theorem lookupVal_setVal (st : Store) (k : String) (v : RVal) (k' : String) :
    lookupVal (setVal st k v) k' = if k = k' then some v else lookupVal st k' := by
  simp [setVal, lookupVal]

theorem lookupVal_delKey (st : Store) (k k' : String) :
    lookupVal (delKey st k) k' = if k' = k then none else lookupVal st k' := by
  induction st with
  | nil => simp [delKey, lookupVal]
  | cons p rest ih =>
    by_cases hpk : p.1 = k
    · have hb : delKey (p :: rest) k = delKey rest k := by
        simp [delKey, List.filter_cons, hpk]
      rw [hb, ih]
      by_cases hk : k' = k
      · simp [hk]
      · have hpk' : ¬ p.1 = k' := fun h => hk (h.symm.trans hpk)
        simp [lookupVal, hk, hpk']
    · have hb : delKey (p :: rest) k = p :: delKey rest k := by
        simp [delKey, List.filter_cons, bne_iff_ne.mpr hpk]
      rw [hb]
      simp only [lookupVal]
      by_cases hpk' : p.1 = k'
      · have hk : ¬ k' = k := fun h => hpk (by rw [hpk', h])
        simp [hpk', hk]
      · simp [hpk', ih]

theorem getStr_setVal (st : Store) (k : String) (v : RVal) (k' : String) :
    getStr (setVal st k v) k' =
      if k = k' then some (rvalBytes v) else getStr st k' := by
  by_cases h : k = k' <;> simp [getStr, lookupVal_setVal, h]

theorem existsKey_setVal (st : Store) (k : String) (v : RVal) (k' : String) :
    existsKey (setVal st k v) k' = if k = k' then true else existsKey st k' := by
  by_cases h : k = k' <;> simp [existsKey, lookupVal_setVal, h]

theorem getStr_delKey (st : Store) (k k' : String) :
    getStr (delKey st k) k' = if k' = k then none else getStr st k' := by
  by_cases h : k' = k <;> simp [getStr, lookupVal_delKey, h]

theorem existsKey_delKey (st : Store) (k k' : String) :
    existsKey (delKey st k) k' = if k' = k then false else existsKey st k' := by
  by_cases h : k' = k <;> simp [existsKey, lookupVal_delKey, h]

theorem defValueKey_ne_defNameKey (i : Int) (n : String) :
    defValueKey i ≠ defNameKey n := by
  intro h
  have h2 := congrArg String.data h
  simp only [defValueKey, defNameKey, String.data_append] at h2
  simp at h2

/-- C2: evaluating the round-trip scenario against the embedded code.
`create` on a fresh store assigns id 1 and seeds the counter key "s:1"
with the offset 100000, but assigning ["a","b","c"] yields the aliases
["1","2","3"] (each `created`, no error), because SeqGen.New increments
the unrelated key "s:%dt" (the unformatted seqPrefix pattern concatenated
with the name); the offset-seeded counter is still at 100000 afterwards,
and the aliases are not the ["100001","100002","100003"] of the claim. -/
theorem c2_seq_roundtrip_eval :
    (createDef ([] : Store) c2def).2 = .ok c2d1 ∧
    lookupVal c2store (seqKeyOf 1) = some (.int 100000) ∧
    c2gen.1 = [⟨"a", "1", .statusCreated⟩, ⟨"b", "2", .statusCreated⟩,
      ⟨"c", "3", .statusCreated⟩] ∧
    c2gen.2.2 = none ∧
    lookupVal c2gen.2.1 (seqKeyOf 1) = some (.int 100000) ∧
    lookupVal c2gen.2.1 (seqIncrKey "t") = some (.int 3) ∧
    c2gen.1.map (fun ia => ia.alias') ≠ ["100001", "100002", "100003"] :=
  ⟨rfl, by decide, by decide, by decide, by decide, by decide, by decide⟩

/-- C7: Server.Put implements the spec's put contract: it skips entries
with an empty identifier, fails with EmptyAlias on an empty alias, and
otherwise overwrites forward[identifier] and sets reverse[alias]
unconditionally, with no existence check (last writer wins). -/
theorem c7_put_refines_spec (d : Def) (ias : List IdentAlias) (st : Store) :
    serverPut d ias st = putSpec d ias st := by
  induction ias generalizing st with
  | nil => rfl
  | cons ia rest ih =>
    by_cases hi : ia.ident = ""
    · have h1 : serverPut d (ia :: rest) st = serverPut d rest st := by
        simp [serverPut, hi]
      have h2 : putSpec d (ia :: rest) st = putSpec d rest st := by
        simp [putSpec, List.filter_cons, hi]
      rw [h1, h2]
      exact ih st
    · have hb : (ia.ident != "") = true := bne_iff_ne.mpr hi
      have h2 : putSpec d (ia :: rest) st =
          putSpecGo d (ia :: rest.filter (fun x => x.ident != "")) st := by
        simp [putSpec, List.filter_cons, hb]
      rw [h2]
      by_cases ha : ia.alias' = ""
      · simp [serverPut, putSpecGo, hi, ha]
      · have h3 : serverPut d (ia :: rest) st = serverPut d rest
            (setVal (setVal st (fwdKey d.id ia.ident) (.str ia.alias'))
              (revKey d.id ia.alias') (.str "1")) := by
          simp [serverPut, hi, ha]
        have h4 : putSpecGo d (ia :: rest.filter (fun x => x.ident != "")) st =
            putSpec d rest
              (setVal (setVal st (fwdKey d.id ia.ident) (.str ia.alias'))
                (revKey d.id ia.alias') (.str "1")) := by
          simp [putSpecGo, putSpec, ha]
        rw [h3, h4]
        exact ih _

theorem serverGet_snd (d : Def) (ias : List IdentAlias) (st : Store) :
    (serverGet d ias st).2 = st := by
  induction ias with
  | nil => rfl
  | cons ia rest ih =>
    simp only [serverGet]
    exact ih

theorem serverGet_fst (d : Def) (ias : List IdentAlias) (st : Store) :
    (serverGet d ias st).1 = ias.map (fun ia =>
      match getStr st (fwdKey d.id ia.ident) with
      | some a => ⟨ia.ident, a, .statusExists⟩
      | none => ⟨ia.ident, ia.alias', .statusMissing⟩) := by
  induction ias with
  | nil => rfl
  | cons ia rest ih =>
    simp only [serverGet, List.map_cons]
    refine congrArg₂ _ ?_ ih
    cases h : getStr st (fwdKey d.id ia.ident) <;> simp [h]

/-- C6: Server.Get is a pure read of the forward table: the store comes
back unchanged, each result carries the stored alias with status `exists`
on a forward hit and status `missing` on a miss, and — when the incoming
aliases are empty, as every caller constructs them — a `missing` result
leaves the alias empty while an `exists` result returns exactly the stored
alias. -/
theorem c6_lookup_pure_read (d : Def) (ias : List IdentAlias) (st : Store) :
    (serverGet d ias st).2 = st ∧
    (serverGet d ias st).1 = ias.map (fun ia =>
      match getStr st (fwdKey d.id ia.ident) with
      | some a => ⟨ia.ident, a, .statusExists⟩
      | none => ⟨ia.ident, ia.alias', .statusMissing⟩) ∧
    ((∀ ia ∈ ias, ia.alias' = "") → ∀ out ∈ (serverGet d ias st).1,
      (out.status = .statusMissing →
        out.alias' = "" ∧ getStr st (fwdKey d.id out.ident) = none) ∧
      (out.status = .statusExists →
        getStr st (fwdKey d.id out.ident) = some out.alias')) := by
  refine ⟨serverGet_snd d ias st, serverGet_fst d ias st, ?_⟩
  · intro hempty out hout
    rw [serverGet_fst d ias st] at hout
    obtain ⟨ia, hia, hf⟩ := List.mem_map.mp hout
    cases h : getStr st (fwdKey d.id ia.ident) with
    | none =>
      rw [h] at hf
      constructor
      · intro _
        rw [← hf]
        exact ⟨hempty ia hia, h⟩
      · intro hst
        rw [← hf] at hst
        exact absurd hst (by simp)
    | some a =>
      rw [h] at hf
      constructor
      · intro hst
        rw [← hf] at hst
        exact absurd hst (by simp)
      · intro _
        rw [← hf]
        exact h

theorem c6_lookup_pure_read_witness :
    (serverGet dP [⟨"z", "", .unset⟩] ([] : Store)).2 = ([] : Store) ∧
    ∀ out ∈ (serverGet dP [⟨"z", "", .unset⟩] ([] : Store)).1,
      out.status = .statusMissing →
        out.alias' = "" ∧ getStr ([] : Store) (fwdKey dP.id out.ident) = none :=
  ⟨(c6_lookup_pure_read dP [⟨"z", "", .unset⟩] ([] : Store)).1,
   fun out hout hmiss =>
    ((c6_lookup_pure_read dP [⟨"z", "", .unset⟩] ([] : Store)).2.2
      (by decide) out hout).1 hmiss⟩

/-- C1 counterexample: in Server.Gen's commit, the EXISTS check and the
MSET are separate backend commands with no transaction around them.  Here
the reverse key for candidate "A" is free at check time; a concurrent
assignment (`c1env`) then claims "A" for the other identifier "y" inside
the check-to-write window; the commit nevertheless goes through (it does
not loop back to generate a new candidate and reports no conflict), and
afterwards both "x" and "y" forward-map to the same alias "A". -/
theorem c1_commit_overwrites_counterexample :
    existsKey ([] : Store) (revKey 1 "A") = false ∧
    existsKey (c1env ([] : Store)) (revKey 1 "A") = true ∧
    getStr (c1env ([] : Store)) (fwdKey 1 "y") = some "A" ∧
    genCommitStep 1 (fwdKey 1 "x") "A" c1env ([] : Store) = some c1after ∧
    getStr c1after (fwdKey 1 "x") = some "A" ∧
    getStr c1after (fwdKey 1 "y") = some "A" := by
  refine ⟨by decide, by decide, by decide, by decide, by decide, by decide⟩

/-- C1 amended: the commit step of Server.Gen is a non-atomic
check-then-set.  It declines to write (and the loop retries with a fresh
candidate) exactly when the separate EXISTS command, issued before the
write, reports the candidate's reverse key present; when that check
reported the key free, the MSET is executed unconditionally — whatever a
concurrent operation wrote in between (`env`) is simply overwritten, and
no conflict is ever reported at the write.  The second part reconciles the
fine-grained step with the sequential loop `genAttempts`: a reverse hit
retries, a reverse miss commits. -/
theorem c1_commit_is_check_then_set :
    (∀ (d : Int) (k a : String) (env : Store → Store) (st : Store),
      (genCommitStep d k a env st = none ↔ existsKey st (revKey d a) = true) ∧
      (existsKey st (revKey d a) = false →
        genCommitStep d k a env st =
          some (setVal (setVal (env st) k (.str a)) (revKey d a) (.str "1")))) ∧
    (∀ (d : Def) (g : GenFn) (k : String) (fuel gs : Nat) (st : Store),
      genAttempts d g k (fuel + 1) gs st =
        match genCommitStep d.id k (g gs st).1 (fun s => s) (g gs st).2.2 with
        | none => genAttempts d g k fuel (g gs st).2.1 (g gs st).2.2
        | some st2 => (some (g gs st).1, (g gs st).2.1, st2)) := by
  constructor
  · intro d k a env st
    constructor
    · by_cases h : existsKey st (revKey d a) <;> simp [genCommitStep, h]
    · intro h
      simp [genCommitStep, h]
  · intro d g k fuel gs st
    by_cases h : existsKey (g gs st).2.2 (revKey d.id (g gs st).1) <;>
      simp [genAttempts, genCommitStep, h]

/-- C8: validateDef accepts a definition exactly when the name is nonempty
and matches the class `[A-Za-z0-9._-]+` and the type is one of seq, uuid,
or rand with `minlen >= 4` and at least 8 characters (bytes) in `chars`;
on a validation error or an already-bound name, CreateDef fails with the
corresponding error and returns the store untouched — no definition is
created. -/
theorem c8_create_fails_cleanly :
    (∀ d : Def, validateDef d = none ↔
      (matchesNameRegex d.name = true ∧
       (d.ty = "seq" ∨ d.ty = "uuid" ∨
        (d.ty = "rand" ∧ MinRandMinlen ≤ d.minlen ∧
         MinRandChars ≤ d.chars.utf8ByteSize)))) ∧
    (∀ (st : Store) (d : Def) (msg : String), validateDef d = some msg →
      createDef st d = (st, .error (.validation msg))) ∧
    (∀ (st : Store) (d : Def), validateDef d = none →
      existsKey st (defNameKey d.name) = true →
      createDef st d = (st, .error .defExists)) := by
  refine ⟨?_, ?_, ?_⟩
  · intro d
    by_cases h1 : d.name = ""
    · have hm : matchesNameRegex "" = false := by decide
      simp [validateDef, h1, hm]
    · by_cases h2 : matchesNameRegex d.name
      · by_cases h3 : d.ty = ""
        · simp [validateDef, h1, h2, h3]
        · by_cases h4 : d.ty = "seq"
          · simp [validateDef, h1, h2, h3, h4]
          · by_cases h5 : d.ty = "rand"
            · have hns : ¬ d.ty = "uuid" := by rw [h5]; decide
              by_cases h6 : d.minlen < MinRandMinlen
              · simp [validateDef, h1, h2, h3, h4, h5, hns, h6, not_le.mpr h6]
              · by_cases h7 : d.chars.utf8ByteSize < MinRandChars
                · simp [validateDef, h1, h2, h3, h4, h5, hns, h6, h7,
                    not_le.mpr h7]
                · simp [validateDef, h1, h2, h3, h4, h5, hns, h6, h7,
                    not_lt.mp h6, not_lt.mp h7]
            · by_cases h8 : d.ty = "uuid"
              · simp [validateDef, h1, h2, h3, h4, h5, h8]
              · simp [validateDef, h1, h2, h3, h4, h5, h8]
      · simp [validateDef, h1, h2]
  · intro st d msg h
    simp [createDef, h]
  · intro st d h hex
    simp [createDef, h, hex]

theorem c8_create_fails_cleanly_witness :
    createDef ([] : Store) (⟨0, "", "", 0, "", 0, "", false⟩ : Def) =
      (([] : Store), .error (.validation "name required")) ∧
    createDef st9 dC3 = (st9, .error .defExists) :=
  ⟨c8_create_fails_cleanly.2.1 ([] : Store) ⟨0, "", "", 0, "", 0, "", false⟩
      "name required" (by decide),
   c8_create_fails_cleanly.2.2 st9 dC3 (by decide) (by decide)⟩

/-- C9: the update handler preserves the stored id no matter what id the
request body carries: after a successful update of the definition
registered under `name`, the (possibly new) name binds to the original id
and the blob stored at the original id's value key carries that id. -/
theorem c9_update_preserves_id (st : Store) (name : String) (p : DefPatch)
    (d0 : Def) (hget : getDef st name = some d0)
    (hok : (handlerUpdateDef st name p).2 = none) :
    getInt (handlerUpdateDef st name p).1 (defNameKey (p.name.getD d0.name)) =
      some d0.id ∧
    ∃ d', getBlob (handlerUpdateDef st name p).1 (defValueKey d0.id) = some d' ∧
      d'.id = d0.id ∧ d'.name = p.name.getD d0.name := by
  have e1 : handlerUpdateDef st name p =
      match updateDef st name (mergedKeepId d0 p) with
      | (st', none) => (st', none)
      | (st', some msg) => (st', some (.validation msg)) := by
    simp only [handlerUpdateDef, hget]
  cases hval : validateDef (mergedKeepId d0 p) with
  | some msg =>
    simp only [updateDef, hval] at e1
    rw [e1] at hok
    simp at hok
  | none =>
    simp only [updateDef, hval] at e1
    rw [e1]
    have hname : (mergedKeepId d0 p).name = p.name.getD d0.name := rfl
    have hid : (mergedKeepId d0 p).id = d0.id := rfl
    constructor
    · rw [hname, hid, getInt, lookupVal_setVal,
        if_neg (defValueKey_ne_defNameKey d0.id (p.name.getD d0.name)),
        lookupVal_setVal, if_pos rfl]
    · refine ⟨mergedKeepId d0 p, ?_, hid, hname⟩
      rw [hid, getBlob, lookupVal_setVal, if_pos rfl]

theorem c9_update_preserves_id_witness :
    getInt (handlerUpdateDef st9 "t" p9).1 (defNameKey "t2") = some 7 ∧
    ∃ d', getBlob (handlerUpdateDef st9 "t" p9).1 (defValueKey 7) = some d' ∧
      d'.id = 7 ∧ d'.name = "t2" :=
  c9_update_preserves_id st9 "t" p9 d9 (by decide) (by decide)

theorem putWrites_append (d : Def) (l1 l2 : List IdentAlias) (st : Store) :
    putWrites d (l1 ++ l2) st = putWrites d l2 (putWrites d l1 st) := by
  induction l1 generalizing st with
  | nil => rfl
  | cons ia rest ih =>
    by_cases hi : ia.ident = "" <;> simp [putWrites, hi, ih]

theorem putWrites_lookup (d : Def) (l : List IdentAlias) (st : Store)
    (K : String)
    (h : ∀ ia ∈ l, ia.ident ≠ "" →
      fwdKey d.id ia.ident ≠ K ∧ revKey d.id ia.alias' ≠ K) :
    lookupVal (putWrites d l st) K = lookupVal st K := by
  induction l generalizing st with
  | nil => rfl
  | cons ia rest ih =>
    by_cases hi : ia.ident = ""
    · simp only [putWrites, hi, if_pos rfl, ite_true]
      exact ih st (fun x hx => h x (List.mem_cons_of_mem _ hx))
    · have hk := h ia (List.mem_cons_self _ _) hi
      simp only [putWrites, hi, ite_false, if_neg hi]
      rw [ih _ (fun x hx => h x (List.mem_cons_of_mem _ hx))]
      rw [lookupVal_setVal, if_neg hk.2, lookupVal_setVal, if_neg hk.1]

theorem putWrites_exists_mono (d : Def) (l : List IdentAlias) (st : Store)
    (K : String) (h : existsKey st K = true) :
    existsKey (putWrites d l st) K = true := by
  induction l generalizing st with
  | nil => exact h
  | cons ia rest ih =>
    by_cases hi : ia.ident = ""
    · simp only [putWrites, hi, ite_true, if_pos rfl]
      exact ih st h
    · simp only [putWrites, hi, ite_false, if_neg hi]
      refine ih _ ?_
      rw [existsKey_setVal]
      by_cases h1 : revKey d.id ia.alias' = K
      · simp [h1]
      · rw [if_neg h1, existsKey_setVal]
        by_cases h2 : fwdKey d.id ia.ident = K
        · simp [h2]
        · rw [if_neg h2]; exact h

theorem serverPut_abort (d : Def) (pre post : List IdentAlias)
    (bad : IdentAlias) (st : Store)
    (hpre : ∀ ia ∈ pre, ia.ident ≠ "" → ia.alias' ≠ "")
    (hbadI : bad.ident ≠ "") (hbadA : bad.alias' = "") :
    serverPut d (pre ++ bad :: post) st =
      (putWrites d pre st, some .emptyAlias) := by
  induction pre generalizing st with
  | nil =>
    simp [serverPut, putWrites, hbadI, hbadA]
  | cons ia rest ih =>
    by_cases hi : ia.ident = ""
    · simp only [List.cons_append, serverPut, putWrites, hi, ite_true,
        if_pos rfl]
      exact ih st (fun x hx => hpre x (List.mem_cons_of_mem _ hx))
    · have ha := hpre ia (List.mem_cons_self _ _) hi
      simp only [List.cons_append, serverPut, putWrites, hi, ite_false,
        if_neg hi, ha, if_neg ha]
      exact ih _ (fun x hx => hpre x (List.mem_cons_of_mem _ hx))

/-- C10: Server.Put is not atomic on error.  When the batch is a run of
well-formed pairs followed by a pair with a nonempty identifier and an
empty alias, the call returns the EmptyAlias error, yet every earlier
well-formed pair has already been written: its forward entry holds its
alias and its reverse marker is present in the returned store.  (The
earlier nonempty identifiers are assumed pairwise distinct, otherwise the
overwritten earlier write would not survive.) -/
theorem c10_put_partial_commit (d : Def) (st : Store)
    (pre post : List IdentAlias) (bad : IdentAlias)
    (hbadI : bad.ident ≠ "") (hbadA : bad.alias' = "")
    (hpre : ∀ ia ∈ pre, ia.ident ≠ "" → ia.alias' ≠ "")
    (hdist : pre.Pairwise (fun x y =>
      x.ident ≠ "" → y.ident ≠ "" → x.ident ≠ y.ident)) :
    (serverPut d (pre ++ bad :: post) st).2 = some .emptyAlias ∧
    ∀ ia ∈ pre, ia.ident ≠ "" →
      getStr (serverPut d (pre ++ bad :: post) st).1
        (fwdKey d.id ia.ident) = some ia.alias' ∧
      existsKey (serverPut d (pre ++ bad :: post) st).1
        (revKey d.id ia.alias') = true := by
  rw [serverPut_abort d pre post bad st hpre hbadI hbadA]
  refine ⟨rfl, ?_⟩
  intro ia hia hi
  obtain ⟨p1, p2, rfl⟩ := List.append_of_mem hia
  have hpair : ∀ y ∈ p2, ia.ident ≠ "" → y.ident ≠ "" → ia.ident ≠ y.ident := by
    have h1 := (List.pairwise_append.mp hdist).2.1
    have h2 := (List.pairwise_cons.mp h1).1
    exact fun y hy => h2 y hy
  rw [putWrites_append]
  simp only [putWrites, hi, ite_false, if_neg hi]
  have hframe : ∀ y ∈ p2, y.ident ≠ "" →
      fwdKey d.id y.ident ≠ fwdKey d.id ia.ident ∧
      revKey d.id y.alias' ≠ fwdKey d.id ia.ident := by
    intro y hy hyne
    constructor
    · intro hEq
      exact (hpair y hy hi hyne) (fwdKey_inj hEq).symm
    · exact fun hEq => (fwdKey_ne_revKey d.id d.id ia.ident y.alias') hEq.symm
  constructor
  · rw [getStr, putWrites_lookup d p2 _ _ hframe]
    rw [lookupVal_setVal,
      if_neg (fun hEq => fwdKey_ne_revKey d.id d.id ia.ident ia.alias' hEq.symm),
      lookupVal_setVal, if_pos rfl]
    rfl
  · refine putWrites_exists_mono d p2 _ _ ?_
    rw [existsKey_setVal, if_pos rfl]

theorem c10_put_partial_commit_witness :
    (serverPut dP [⟨"x", "A", .unset⟩, ⟨"y", "", .unset⟩] ([] : Store)).2 =
      some .emptyAlias ∧
    getStr (serverPut dP [⟨"x", "A", .unset⟩, ⟨"y", "", .unset⟩]
        ([] : Store)).1 (fwdKey dP.id "x") = some "A" :=
  have h := c10_put_partial_commit dP ([] : Store) [⟨"x", "A", .unset⟩] []
    ⟨"y", "", .unset⟩ (by decide) (by decide) (by decide)
    (List.pairwise_singleton _ _)
  ⟨h.1, (h.2 ⟨"x", "A", .unset⟩ (List.mem_singleton_self _) (by decide)).1⟩

theorem c1_commit_is_check_then_set_witness :
    genCommitStep 1 (fwdKey 1 "x") "A" c1env ([] : Store) =
      some (setVal (setVal (c1env ([] : Store)) (fwdKey 1 "x") (.str "A"))
        (revKey 1 "A") (.str "1")) :=
  (c1_commit_is_check_then_set.1 1 (fwdKey 1 "x") "A" c1env ([] : Store)).2
    (by decide)

theorem genAttempts_getStr (d : Def) (g : GenFn) (i : String) (fuel gs : Nat)
    (st : Store) (a : String) (gs' : Nat) (st' : Store)
    (h : genAttempts d g (fwdKey d.id i) fuel gs st = (some a, gs', st')) :
    getStr st' (fwdKey d.id i) = some a := by
  induction fuel generalizing gs st with
  | zero =>
    have h1 := congrArg (fun r => r.1) h
    simp [genAttempts] at h1
  | succ fuel ih =>
    rw [genAttempts] at h
    by_cases hx : existsKey (g gs st).2.2 (revKey d.id (g gs st).1)
    · rw [if_pos hx] at h
      exact ih _ _ h
    · rw [if_neg hx] at h
      have h1 : some (g gs st).1 = some a := congrArg (fun r => r.1) h
      have ha : (g gs st).1 = a := Option.some.inj h1
      have h3 : setVal (setVal (g gs st).2.2 (fwdKey d.id i)
            (.str (g gs st).1)) (revKey d.id (g gs st).1) (.str "1") = st' :=
        congrArg (fun r => r.2.2) h
      rw [← h3]
      subst ha
      have hne : revKey d.id (g gs st).1 ≠ fwdKey d.id i :=
        fun hE => fwdKey_ne_revKey d.id d.id i (g gs st).1 hE.symm
      simp [getStr, lookupVal_setVal, hne, rvalBytes]

/-- C4: assign is idempotent for a single identifier.  On a store where the
identifier is unmapped, a successful first call returns `created` with
some alias and stores it in the forward table; a second call on the
resulting store returns `exists` with exactly that stored alias, leaving
the store untouched (the forward hit path issues only the one GET and
never invokes the generator). -/
theorem c4_assign_idempotent (d : Def) (g : GenFn) (i : String) (gs : Nat)
    (st : Store) (hi : i ≠ "")
    (hmiss : getStr st (fwdKey d.id i) = none)
    (hok : (serverGen d g [⟨i, "", .unset⟩] gs st).2.2 = none) :
    ∃ a st1,
      serverGen d g [⟨i, "", .unset⟩] gs st =
        ([⟨i, a, .statusCreated⟩], st1, none) ∧
      getStr st1 (fwdKey d.id i) = some a ∧
      serverGen d g [⟨i, "", .unset⟩] 0 st1 =
        ([⟨i, a, .statusExists⟩], st1, none) := by
  have e1 : serverGen d g [⟨i, "", .unset⟩] gs st =
      match genAttempts d g (fwdKey d.id i) MaxAttempts gs st with
      | (none, _, st') =>
        ([⟨i, "", .unset⟩], st', some .maxAttemptsReached)
      | (some a, gs', st') =>
        (⟨i, a, .statusCreated⟩ :: (serverGen d g [] gs' st').1,
          (serverGen d g [] gs' st').2) := by
    simp only [serverGen, hi, ite_false, if_neg hi, hmiss]
  cases hga : genAttempts d g (fwdKey d.id i) MaxAttempts gs st with
  | mk o rest2 =>
    cases o with
    | none =>
      rw [hga] at e1
      rw [e1] at hok
      simp at hok
    | some a =>
      rw [hga] at e1
      simp only [serverGen] at e1
      have hstore := genAttempts_getStr d g i MaxAttempts gs st a rest2.1
        rest2.2 (by rw [hga])
      refine ⟨a, rest2.2, e1, hstore, ?_⟩
      simp only [serverGen, hi, ite_false, if_neg hi, hstore]

theorem c4_assign_idempotent_witness :
    ∃ a st1,
      serverGen dC3 (seqGenNew "t") [⟨"a", "", .unset⟩] 0 ([] : Store) =
        ([⟨"a", a, .statusCreated⟩], st1, none) ∧
      getStr st1 (fwdKey dC3.id "a") = some a ∧
      serverGen dC3 (seqGenNew "t") [⟨"a", "", .unset⟩] 0 st1 =
        ([⟨"a", a, .statusExists⟩], st1, none) :=
  c4_assign_idempotent dC3 (seqGenNew "t") "a" 0 ([] : Store)
    (by decide) (by decide) (by decide)

theorem genAttempts_none_iff (d : Def) (g : GenFn) (k : String)
    (fuel gs : Nat) (st : Store) :
    (genAttempts d g k fuel gs st).1 = none ↔
      allCandidatesTaken d g fuel gs st := by
  induction fuel generalizing gs st with
  | zero => simp [genAttempts, allCandidatesTaken]
  | succ fuel ih =>
    rw [genAttempts, allCandidatesTaken]
    by_cases hx : existsKey (g gs st).2.2 (revKey d.id (g gs st).1)
    · simp [hx, ih]
    · simp [hx]

theorem serverGen_abort (d : Def) (g : GenFn) (ia : IdentAlias)
    (rest : List IdentAlias) (gs : Nat) (st : Store) (gs' : Nat) (st' : Store)
    (hi : ia.ident ≠ "") (hmiss : getStr st (fwdKey d.id ia.ident) = none)
    (hex : genAttempts d g (fwdKey d.id ia.ident) MaxAttempts gs st =
      (none, gs', st')) :
    serverGen d g (ia :: rest) gs st =
      (ia :: rest, st', some .maxAttemptsReached) := by
  simp only [serverGen, hi, ite_false, if_neg hi, hmiss, hex]

theorem serverGen_err_sound (d : Def) (g : GenFn) (ias : List IdentAlias)
    (gs : Nat) (st : Store)
    (h : (serverGen d g ias gs st).2.2 = some .maxAttemptsReached) :
    ∃ ia ∈ ias, ia.ident ≠ "" ∧ ∃ gs1 st1 gs2,
      getStr st1 (fwdKey d.id ia.ident) = none ∧
      genAttempts d g (fwdKey d.id ia.ident) MaxAttempts gs1 st1 =
        (none, gs2, (serverGen d g ias gs st).2.1) ∧
      allCandidatesTaken d g MaxAttempts gs1 st1 := by
  induction ias generalizing gs st with
  | nil => simp [serverGen] at h
  | cons ia rest ih =>
    by_cases hi : ia.ident = ""
    · have e1 : serverGen d g (ia :: rest) gs st =
          (ia :: (serverGen d g rest gs st).1, (serverGen d g rest gs st).2) := by
        simp [serverGen, hi]
      rw [e1] at h ⊢
      obtain ⟨x, hx, hxi, gs1, st1, gs2, hm, hg, hall⟩ := ih gs st h
      exact ⟨x, List.mem_cons_of_mem _ hx, hxi, gs1, st1, gs2, hm, hg, hall⟩
    · cases hget : getStr st (fwdKey d.id ia.ident) with
      | some a =>
        have e1 : serverGen d g (ia :: rest) gs st =
            (⟨ia.ident, a, .statusExists⟩ :: (serverGen d g rest gs st).1,
              (serverGen d g rest gs st).2) := by
          simp only [serverGen, hi, ite_false, if_neg hi, hget]
        rw [e1] at h ⊢
        obtain ⟨x, hx, hxi, gs1, st1, gs2, hm, hg, hall⟩ := ih gs st h
        exact ⟨x, List.mem_cons_of_mem _ hx, hxi, gs1, st1, gs2, hm, hg, hall⟩
      | none =>
        cases hga : genAttempts d g (fwdKey d.id ia.ident) MaxAttempts gs st with
        | mk o rest2 =>
          cases o with
          | none =>
            have e1 := serverGen_abort d g ia rest gs st rest2.1 rest2.2 hi
              hget (by rw [hga])
            rw [e1] at h ⊢
            refine ⟨ia, List.mem_cons_self _ _, hi, gs, st, rest2.1, hget,
              ?_, ?_⟩
            · rw [hga]
            · exact (genAttempts_none_iff d g (fwdKey d.id ia.ident)
                MaxAttempts gs st).mp (by rw [hga])
          | some a =>
            have e1 : serverGen d g (ia :: rest) gs st =
                (⟨ia.ident, a, .statusCreated⟩ ::
                    (serverGen d g rest rest2.1 rest2.2).1,
                  (serverGen d g rest rest2.1 rest2.2).2) := by
              simp only [serverGen, hi, ite_false, if_neg hi, hget, hga]
            rw [e1] at h ⊢
            obtain ⟨x, hx, hxi, gs1, st1, gs2, hm, hg, hall⟩ :=
              ih rest2.1 rest2.2 h
            exact ⟨x, List.mem_cons_of_mem _ hx, hxi, gs1, st1, gs2, hm, hg,
              hall⟩

/-- C5: Server.Gen fails with ErrMaxAttemptsReached exactly through
candidate exhaustion.  The attempt loop exits with the error signal iff
each of the MaxAttempts (default 100) generated candidates was already
present in the reverse table when it was checked; when an identifier's
loop exhausts, the whole call aborts at once with the error, leaving the
failing identifier and every later batch entry untouched in the output;
and conversely, whenever the call returns the error, some identifier in
the batch hit a store on which all 100 of its candidates were taken, and
the returned store is the one at that failure point. -/
theorem c5_max_attempts_fail_fast :
    MaxAttempts = 100 ∧
    (∀ (d : Def) (g : GenFn) (k : String) (fuel gs : Nat) (st : Store),
      (genAttempts d g k fuel gs st).1 = none ↔
        allCandidatesTaken d g fuel gs st) ∧
    (∀ (d : Def) (g : GenFn) (ia : IdentAlias) (rest : List IdentAlias)
      (gs : Nat) (st : Store) (gs' : Nat) (st' : Store),
      ia.ident ≠ "" → getStr st (fwdKey d.id ia.ident) = none →
      genAttempts d g (fwdKey d.id ia.ident) MaxAttempts gs st =
        (none, gs', st') →
      serverGen d g (ia :: rest) gs st =
        (ia :: rest, st', some .maxAttemptsReached)) ∧
    (∀ (d : Def) (g : GenFn) (ias : List IdentAlias) (gs : Nat) (st : Store),
      (serverGen d g ias gs st).2.2 = some .maxAttemptsReached →
      ∃ ia ∈ ias, ia.ident ≠ "" ∧ ∃ gs1 st1 gs2,
        getStr st1 (fwdKey d.id ia.ident) = none ∧
        genAttempts d g (fwdKey d.id ia.ident) MaxAttempts gs1 st1 =
          (none, gs2, (serverGen d g ias gs st).2.1) ∧
        allCandidatesTaken d g MaxAttempts gs1 st1) :=
  ⟨rfl, genAttempts_none_iff, serverGen_abort, serverGen_err_sound⟩

theorem agrees_nil (d : Int) : agrees d ([] : Store) := by
  intro a
  simp [existsKey, lookupVal, getStr]

theorem fwdInj_nil (d : Int) : fwdInj d ([] : Store) := by
  intro i j a h1 _
  simp [getStr, lookupVal] at h1

theorem agrees_of_frame (d : Int) (st st' : Store)
    (hf : ∀ i, lookupVal st' (fwdKey d i) = lookupVal st (fwdKey d i))
    (hr : ∀ a, lookupVal st' (revKey d a) = lookupVal st (revKey d a))
    (h : agrees d st) : agrees d st' := by
  intro a
  have e1 : existsKey st' (revKey d a) = existsKey st (revKey d a) := by
    rw [existsKey, existsKey, hr]
  have e2 : ∀ i, getStr st' (fwdKey d i) = getStr st (fwdKey d i) := fun i => by
    rw [getStr, getStr, hf]
  rw [e1]
  simp only [e2]
  exact h a

theorem fwdInj_of_frame (d : Int) (st st' : Store)
    (hf : ∀ i, lookupVal st' (fwdKey d i) = lookupVal st (fwdKey d i))
    (h : fwdInj d st) : fwdInj d st' := by
  intro i j a h1 h2
  have e2 : ∀ k, getStr st' (fwdKey d k) = getStr st (fwdKey d k) := fun k => by
    rw [getStr, getStr, hf]
  rw [e2] at h1 h2
  exact h i j a h1 h2

theorem commit_preserves (d : Int) (i0 a0 : String) (st : Store)
    (hmiss : getStr st (fwdKey d i0) = none)
    (hfree : existsKey st (revKey d a0) = false)
    (ha : agrees d st) (hinj : fwdInj d st) :
    agrees d (setVal (setVal st (fwdKey d i0) (.str a0))
      (revKey d a0) (.str "1")) ∧
    fwdInj d (setVal (setVal st (fwdKey d i0) (.str a0))
      (revKey d a0) (.str "1")) := by
  have hrevT : ∀ b, existsKey (setVal (setVal st (fwdKey d i0) (.str a0))
      (revKey d a0) (.str "1")) (revKey d b) =
      if a0 = b then true else existsKey st (revKey d b) := by
    intro b
    rw [existsKey_setVal, existsKey_setVal,
      if_neg (fwdKey_ne_revKey d d i0 b)]
    by_cases hb : a0 = b
    · rw [if_pos (by rw [hb]), if_pos hb]
    · rw [if_neg (fun hE => hb (revKey_inj hE)), if_neg hb]
  have hfwdT : ∀ j, getStr (setVal (setVal st (fwdKey d i0) (.str a0))
      (revKey d a0) (.str "1")) (fwdKey d j) =
      if i0 = j then some a0 else getStr st (fwdKey d j) := by
    intro j
    rw [getStr, lookupVal_setVal,
      if_neg (fun hE => fwdKey_ne_revKey d d j a0 hE.symm), lookupVal_setVal]
    by_cases hj : i0 = j
    · rw [if_pos (by rw [hj]), if_pos hj]
      rfl
    · rw [if_neg (fun hE => hj (fwdKey_inj hE)), if_neg hj]
      rfl
  constructor
  · intro b
    rw [hrevT b]
    by_cases hb : a0 = b
    · subst hb
      simp only [if_pos rfl]
      constructor
      · intro _
        exact ⟨i0, by rw [hfwdT i0, if_pos rfl]⟩
      · intro _
        rfl
    · rw [if_neg hb]
      constructor
      · intro hx
        obtain ⟨j, hj⟩ := (ha b).mp hx
        have hji : i0 ≠ j := by
          intro hE
          rw [← hE, hmiss] at hj
          exact Option.noConfusion hj
        exact ⟨j, by rw [hfwdT j, if_neg hji]; exact hj⟩
      · rintro ⟨j, hj⟩
        rw [hfwdT j] at hj
        by_cases hji : i0 = j
        · rw [if_pos hji] at hj
          exact absurd (Option.some.inj hj) hb
        · rw [if_neg hji] at hj
          exact (ha b).mpr ⟨j, hj⟩
  · intro i j b h1 h2
    rw [hfwdT i] at h1
    rw [hfwdT j] at h2
    by_cases hi : i0 = i
    · by_cases hj : i0 = j
      · rw [← hi, ← hj]
      · rw [if_pos hi] at h1
        rw [if_neg hj] at h2
        have hb : b = a0 := (Option.some.inj h1).symm
        subst hb
        have : existsKey st (revKey d b) = true := (ha b).mpr ⟨j, h2⟩
        rw [hfree] at this
        exact Bool.noConfusion this
    · by_cases hj : i0 = j
      · rw [if_neg hi] at h1
        rw [if_pos hj] at h2
        have hb : b = a0 := (Option.some.inj h2).symm
        subst hb
        have : existsKey st (revKey d b) = true := (ha b).mpr ⟨i, h1⟩
        rw [hfree] at this
        exact Bool.noConfusion this
      · rw [if_neg hi] at h1
        rw [if_neg hj] at h2
        exact hinj i j b h1 h2

theorem genAttempts_preserves (d : Def) (g : GenFn) (i0 : String)
    (fuel gs : Nat) (st : Store) (hg : genFrame d.id g)
    (hmiss : getStr st (fwdKey d.id i0) = none)
    (ha : agrees d.id st) (hinj : fwdInj d.id st) :
    agrees d.id (genAttempts d g (fwdKey d.id i0) fuel gs st).2.2 ∧
    fwdInj d.id (genAttempts d g (fwdKey d.id i0) fuel gs st).2.2 := by
  induction fuel generalizing gs st with
  | zero =>
    simp only [genAttempts]
    exact ⟨ha, hinj⟩
  | succ fuel ih =>
    obtain ⟨hf, hr⟩ := hg gs st
    have ha' : agrees d.id (g gs st).2.2 :=
      agrees_of_frame d.id st (g gs st).2.2 hf hr ha
    have hinj' : fwdInj d.id (g gs st).2.2 :=
      fwdInj_of_frame d.id st (g gs st).2.2 hf hinj
    have hmiss' : getStr (g gs st).2.2 (fwdKey d.id i0) = none := by
      rw [getStr, hf i0, ← getStr]
      exact hmiss
    rw [genAttempts]
    by_cases hx : existsKey (g gs st).2.2 (revKey d.id (g gs st).1)
    · rw [if_pos hx]
      exact ih (g gs st).2.1 (g gs st).2.2 hmiss' ha' hinj'
    · rw [if_neg hx]
      have hfree : existsKey (g gs st).2.2 (revKey d.id (g gs st).1) = false := by
        rwa [Bool.not_eq_true] at hx
      exact commit_preserves d.id i0 (g gs st).1 (g gs st).2.2 hmiss' hfree
        ha' hinj'

theorem serverGen_preserves (d : Def) (g : GenFn) (ias : List IdentAlias)
    (gs : Nat) (st : Store) (hg : genFrame d.id g)
    (ha : agrees d.id st) (hinj : fwdInj d.id st) :
    agrees d.id (serverGen d g ias gs st).2.1 ∧
    fwdInj d.id (serverGen d g ias gs st).2.1 := by
  induction ias generalizing gs st with
  | nil =>
    simp only [serverGen]
    exact ⟨ha, hinj⟩
  | cons ia rest ih =>
    by_cases hi : ia.ident = ""
    · have e : serverGen d g (ia :: rest) gs st =
          (ia :: (serverGen d g rest gs st).1, (serverGen d g rest gs st).2) := by
        simp [serverGen, hi]
      rw [e]
      exact ih gs st ha hinj
    · cases hget : getStr st (fwdKey d.id ia.ident) with
      | some a =>
        have e : serverGen d g (ia :: rest) gs st =
            (⟨ia.ident, a, .statusExists⟩ :: (serverGen d g rest gs st).1,
              (serverGen d g rest gs st).2) := by
          simp only [serverGen, hi, ite_false, if_neg hi, hget]
        rw [e]
        exact ih gs st ha hinj
      | none =>
        have hpres := genAttempts_preserves d g ia.ident MaxAttempts gs st hg
          hget ha hinj
        cases hga : genAttempts d g (fwdKey d.id ia.ident) MaxAttempts gs st with
        | mk o r2 =>
          rw [hga] at hpres
          cases o with
          | none =>
            have e := serverGen_abort d g ia rest gs st r2.1 r2.2 hi hget
              (by rw [hga])
            rw [e]
            exact hpres
          | some a =>
            have e : serverGen d g (ia :: rest) gs st =
                (⟨ia.ident, a, .statusCreated⟩ ::
                    (serverGen d g rest r2.1 r2.2).1,
                  (serverGen d g rest r2.1 r2.2).2) := by
              simp only [serverGen, hi, ite_false, if_neg hi, hget, hga]
            rw [e]
            exact ih r2.1 r2.2 hpres.1 hpres.2

theorem delete_step_preserves (d : Int) (i0 a0 : String) (st : Store)
    (hget : getStr st (fwdKey d i0) = some a0)
    (ha : agrees d st) (hinj : fwdInj d st) :
    agrees d (delKey (delKey st (fwdKey d i0)) (revKey d a0)) ∧
    fwdInj d (delKey (delKey st (fwdKey d i0)) (revKey d a0)) := by
  have hrevT : ∀ b, existsKey (delKey (delKey st (fwdKey d i0))
      (revKey d a0)) (revKey d b) =
      if a0 = b then false else existsKey st (revKey d b) := by
    intro b
    rw [existsKey_delKey]
    by_cases hb : a0 = b
    · rw [if_pos (by rw [hb]), if_pos hb]
    · rw [if_neg (fun hE => hb (revKey_inj hE).symm), if_neg hb,
        existsKey_delKey, if_neg (fun hE => fwdKey_ne_revKey d d i0 b hE.symm)]
  have hfwdT : ∀ j, getStr (delKey (delKey st (fwdKey d i0))
      (revKey d a0)) (fwdKey d j) =
      if i0 = j then none else getStr st (fwdKey d j) := by
    intro j
    rw [getStr, lookupVal_delKey, if_neg (fwdKey_ne_revKey d d j a0),
      lookupVal_delKey]
    by_cases hj : i0 = j
    · rw [if_pos (by rw [hj]), if_pos hj]
      rfl
    · rw [if_neg (fun hE => hj (fwdKey_inj hE).symm), if_neg hj]
      rfl
  constructor
  · intro b
    rw [hrevT b]
    by_cases hb : a0 = b
    · subst hb
      rw [if_pos rfl]
      constructor
      · intro h
        exact Bool.noConfusion h
      · rintro ⟨j, hj⟩
        rw [hfwdT j] at hj
        by_cases hji : i0 = j
        · rw [if_pos hji] at hj
          exact Option.noConfusion hj
        · rw [if_neg hji] at hj
          exact absurd (hinj i0 j a0 hget hj) hji
    · rw [if_neg hb]
      constructor
      · intro hx
        obtain ⟨j, hj⟩ := (ha b).mp hx
        have hji : i0 ≠ j := by
          intro hE
          rw [← hE, hget] at hj
          exact hb (Option.some.inj hj)
        exact ⟨j, by rw [hfwdT j, if_neg hji]; exact hj⟩
      · rintro ⟨j, hj⟩
        rw [hfwdT j] at hj
        by_cases hji : i0 = j
        · rw [if_pos hji] at hj
          exact Option.noConfusion hj
        · rw [if_neg hji] at hj
          exact (ha b).mpr ⟨j, hj⟩
  · intro i j b h1 h2
    rw [hfwdT i] at h1
    rw [hfwdT j] at h2
    by_cases hi : i0 = i
    · rw [if_pos hi] at h1
      exact Option.noConfusion h1
    · by_cases hj : i0 = j
      · rw [if_pos hj] at h2
        exact Option.noConfusion h2
      · rw [if_neg hi] at h1
        rw [if_neg hj] at h2
        exact hinj i j b h1 h2

theorem serverDel_preserves (d : Def) (ids : List String) (st : Store)
    (ha : agrees d.id st) (hinj : fwdInj d.id st) :
    agrees d.id (serverDel d ids st) ∧ fwdInj d.id (serverDel d ids st) := by
  induction ids generalizing st with
  | nil => exact ⟨ha, hinj⟩
  | cons i rest ih =>
    cases hget : getStr st (fwdKey d.id i) with
    | none =>
      simp only [serverDel, hget]
      exact ih st ha hinj
    | some a =>
      simp only [serverDel, hget]
      have h := delete_step_preserves d.id i a st hget ha hinj
      exact ih _ h.1 h.2

theorem genFrame_seqGenNew (d : Int) (n : String) :
    genFrame d (seqGenNew n) := by
  intro gs st
  constructor
  · intro i
    simp only [seqGenNew, incrStore]
    rw [lookupVal_setVal, if_neg (seqIncrKey_ne_fwdKey n d i)]
  · intro a
    simp only [seqGenNew, incrStore]
    rw [lookupVal_setVal, if_neg (seqIncrKey_ne_revKey n d a)]

theorem genFrame_MakeGen (k : Int) (rnd : Nat → Nat) (uuids : Nat → String)
    (d : Def) : genFrame k (MakeGen rnd uuids d) := by
  unfold MakeGen
  by_cases h1 : d.ty = "uuid"
  · simp only [h1, ite_true, if_pos rfl]
    intro gs st
    exact ⟨fun i => rfl, fun a => rfl⟩
  · rw [if_neg h1]
    by_cases h2 : d.ty = "rand"
    · rw [if_pos h2]
      intro gs st
      exact ⟨fun i => rfl, fun a => rfl⟩
    · rw [if_neg h2]
      by_cases h3 : d.ty = "seq"
      · rw [if_pos h3]
        exact genFrame_seqGenNew k d.name
      · rw [if_neg h3]
        intro gs st
        exact ⟨fun i => rfl, fun a => rfl⟩

/-- C3 counterexample: two completed `put` calls break the forward/reverse
agreement.  From an empty (agreeing) store, `put [x -> A]` completes and
leaves agreeing tables; `put [x -> B]` also completes, but it overwrites
the forward entry of "x" without clearing the reverse marker of "A", so
afterwards "A" has a reverse entry while no identifier forward-maps to it:
the tables of definition 1 no longer agree after a completed put. -/
theorem c3_put_breaks_agreement_counterexample :
    (serverPut dP [⟨"x", "A", .unset⟩] ([] : Store)).2 = none ∧
    agrees 1 stP ∧
    (serverPut dP [⟨"x", "B", .unset⟩] stP).2 = none ∧
    existsKey stP2 (revKey 1 "A") = true ∧
    ¬ agrees 1 stP2 := by
  have e1 : stP = setVal (setVal ([] : Store) (fwdKey 1 "x") (.str "A"))
      (revKey 1 "A") (.str "1") := by decide
  have e2 : stP2 = setVal (setVal stP (fwdKey 1 "x") (.str "B"))
      (revKey 1 "B") (.str "1") := by decide
  refine ⟨by decide, ?_, by decide, by decide, ?_⟩
  · intro b
    rw [e1, existsKey_setVal]
    by_cases hb : b = "A"
    · subst hb
      rw [if_pos rfl]
      constructor
      · intro _
        exact ⟨"x", by decide⟩
      · intro _
        rfl
    · rw [if_neg (fun hE => hb (revKey_inj hE).symm), existsKey_setVal,
        if_neg (fwdKey_ne_revKey 1 1 "x" b)]
      constructor
      · intro h
        exact Bool.noConfusion h
      · rintro ⟨i, hi⟩
        rw [getStr, lookupVal_setVal,
          if_neg (fun hE => fwdKey_ne_revKey 1 1 i "A" hE.symm),
          lookupVal_setVal] at hi
        by_cases hx : i = "x"
        · subst hx
          rw [if_pos rfl] at hi
          simp only [Option.map_some', rvalBytes] at hi
          have hb' : "A" = b := Option.some.inj hi
          subst hb'
          exact (hb rfl).elim
        · rw [if_neg (fun hE => hx (fwdKey_inj hE).symm)] at hi
          simp [lookupVal] at hi
  · intro h
    have hA : existsKey stP2 (revKey 1 "A") = true := by decide
    obtain ⟨i, hi⟩ := (h "A").mp hA
    rw [e2, e1] at hi
    rw [getStr, lookupVal_setVal,
      if_neg (fun hE => fwdKey_ne_revKey 1 1 i "B" hE.symm),
      lookupVal_setVal] at hi
    by_cases hx : i = "x"
    · subst hx
      rw [if_pos rfl] at hi
      simp only [Option.map_some', rvalBytes] at hi
      exact absurd (Option.some.inj hi) (by decide)
    · rw [if_neg (fun hE => hx (fwdKey_inj hE).symm), lookupVal_setVal,
        if_neg (fun hE => fwdKey_ne_revKey 1 1 i "A" hE.symm),
        lookupVal_setVal, if_neg (fun hE => hx (fwdKey_inj hE).symm)] at hi
      simp [lookupVal] at hi

/-- C3 amended: the forward/reverse tables of a definition agree after any
completed assign (Server.Gen) or delete (Server.Del) call, provided they
agreed and the forward table was injective beforehand and the generator
does not write forward/reverse keys (true of every generator MakeGen
returns, third conjunct); both agreement and injectivity are preserved.
For put (Server.Put) the property fails: overwriting an identifier's
alias orphans the old alias's reverse entry (see the counterexample). -/
theorem c3_consistency_gen_del :
    (∀ (d : Def) (g : GenFn) (ias : List IdentAlias) (gs : Nat) (st : Store),
      genFrame d.id g → agrees d.id st → fwdInj d.id st →
      agrees d.id (serverGen d g ias gs st).2.1 ∧
      fwdInj d.id (serverGen d g ias gs st).2.1) ∧
    (∀ (d : Def) (ids : List String) (st : Store),
      agrees d.id st → fwdInj d.id st →
      agrees d.id (serverDel d ids st) ∧ fwdInj d.id (serverDel d ids st)) ∧
    (∀ (k : Int) (rnd : Nat → Nat) (uuids : Nat → String) (d : Def),
      genFrame k (MakeGen rnd uuids d)) :=
  ⟨fun d g ias gs st hg ha hinj => serverGen_preserves d g ias gs st hg ha hinj,
   fun d ids st ha hinj => serverDel_preserves d ids st ha hinj,
   genFrame_MakeGen⟩

theorem c3_consistency_gen_del_witness :
    agrees dC3.id
      (serverGen dC3 (seqGenNew "t") [⟨"a", "", .unset⟩] 0 ([] : Store)).2.1 ∧
    agrees dC3.id (serverDel dC3 ["a"] ([] : Store)) :=
  ⟨(c3_consistency_gen_del.1 dC3 (seqGenNew "t") [⟨"a", "", .unset⟩] 0
      ([] : Store) (genFrame_seqGenNew dC3.id "t") (agrees_nil dC3.id)
      (fwdInj_nil dC3.id)).1,
   (c3_consistency_gen_del.2.1 dC3 ["a"] ([] : Store) (agrees_nil dC3.id)
      (fwdInj_nil dC3.id)).1⟩

theorem c5_max_attempts_fail_fast_witness :
    serverGen d5 c5g [⟨"x", "", .unset⟩, ⟨"later", "", .unset⟩] 0 c5store =
      ([⟨"x", "", .unset⟩, ⟨"later", "", .unset⟩], c5store,
        some .maxAttemptsReached) :=
  c5_max_attempts_fail_fast.2.2.1 d5 c5g ⟨"x", "", .unset⟩
    [⟨"later", "", .unset⟩] 0 c5store 400 c5store (by decide) (by decide)
    (by decide)

end Aliases
